import Mathlib

/-!
Verification development for the gnubg evaluation server
(`src/gnubg-server/app/main.py`).

The Python adapter is shallowly embedded below:
* pydantic models become Lean structures (floats are modelled as `ℚ`,
  Python `int` as `ℤ`);
* pure helpers (`_make_position_id`, `_parse_notation`, the move-splitting
  post-processing, `_transform_for_black`, `_parse_cube`,
  `_parse_evaluation`) become executable Lean functions;
* fallible code (Python exceptions such as `ValueError` from `int(...)`)
  is modelled with `Option`;
* the `evaluate` orchestrator is modelled as a state-free function over an
  abstract engine (`send : String → Option String`, `none` = the command
  raised) that also returns the list of commands written to the engine.
-/

/-- Mirrors the pydantic `MoveResponse` model: a single checker move. -/
structure MoveResponse where
  from_point : Int
  to_point : Int
  die_used : Int
  is_hit : Bool
  is_bear_off : Bool
deriving DecidableEq

/-- Mirrors `PlayResponse`: an ordered move list plus its textual form
(the Python field is called `notation`, a Lean keyword, hence
`notationText`). -/
structure PlayResponse where
  moves : List MoveResponse
  notationText : String
deriving DecidableEq

/-- Mirrors `RankedPlay` (equities and probabilities as `ℚ`). -/
structure RankedPlay where
  rank : Int
  play : PlayResponse
  equity : ℚ
  win_probability : ℚ
  equity_difference : ℚ
deriving DecidableEq

/-- Mirrors `EvaluateResponse`. -/
structure EvaluateResponse where
  best_play : PlayResponse
  best_equity : ℚ
  all_plays : List RankedPlay
deriving DecidableEq

/-- Mirrors `CubeResponse`. -/
structure CubeResponse where
  recommendation : String
  no_double_equity : ℚ
  double_take_equity : ℚ
  double_pass_equity : ℚ
  proper_cube_action : String
  win_probability : ℚ
  gammon_threat : ℚ
deriving DecidableEq

/-- Mirrors `EvaluateRequest` (the list-length bounds enforced by pydantic
become hypotheses of the theorems that need them). -/
structure EvaluateRequest where
  points : List Int
  bar : List Int
  borne_off : List Int
  dice : List Int
  player : String
  ply : Int
deriving DecidableEq

/-! ## Move splitting (`_parse_notation` post-processing, lines 504-531) -/

/-- The candidate first-die values `range(1, 7)` of the splitting loop. -/
def dieCandidates : List Int := [1, 2, 3, 4, 5, 6]

/-- One step of the `processed_moves` loop of `_parse_notation`: a move
with `die_used > 6` that is not a bear-off is split into the two moves
produced by the first `d1` in `1..6` with `1 ≤ total - d1 ≤ 6`; a move
with `die_used > 12` (or one that never finds a split) is kept / dropped
exactly as in the source. -/
def splitOne (m : MoveResponse) : List MoveResponse :=
  if 6 < m.die_used ∧ m.is_bear_off = false then
    if m.die_used ≤ 12 then
      match dieCandidates.find? (fun d1 => decide (1 ≤ m.die_used - d1 ∧ m.die_used - d1 ≤ 6)) with
      | some d1 =>
        let mid := if m.from_point < m.to_point then m.from_point + d1 else m.from_point - d1
        [⟨m.from_point, mid, d1, false, false⟩,
         ⟨mid, m.to_point, m.die_used - d1, m.is_hit, false⟩]
      | none => []
    else [m]
  else [m]

/-- The full post-processing pass over the parsed move list. -/
def processMoves (ms : List MoveResponse) : List MoveResponse :=
  ms.flatMap splitOne

/-! ## Black-perspective transform (`_transform_for_black`, lines 194-252) -/

/-- `transform_move` of `_transform_for_black`. -/
def transform_move (m : MoveResponse) : MoveResponse :=
  let from_pt : Int := if m.from_point = 0 then 25 else 25 - m.from_point
  let to_pt : Int := if m.is_bear_off then from_pt + m.die_used else 25 - m.to_point
  ⟨from_pt, to_pt, m.die_used, m.is_hit, m.is_bear_off⟩

/-- One part of the regenerated notation string:
`f"{from_str}/{to_str}{'*' if m.is_hit else ''}"` with
`from_str = "bar" if m.from_point == 0 else str(m.from_point)` and
`to_str = "off" if m.is_bear_off else str(m.to_point)`. -/
def moveNotationPart (m : MoveResponse) : String :=
  (if m.from_point = 0 then "bar" else toString m.from_point) ++ "/" ++
    (if m.is_bear_off then "off" else toString m.to_point) ++
    (if m.is_hit then "*" else "")

/-- `" ".join(parts)`. -/
def joinSpace : List String → String
  | [] => ""
  | [s] => s
  | s :: rest => s ++ " " ++ joinSpace rest

/-- `transform_play` of `_transform_for_black`: map the moves and
regenerate the notation from the transformed moves. -/
def transform_play (p : PlayResponse) : PlayResponse :=
  let new_moves := p.moves.map transform_move
  ⟨new_moves, joinSpace (new_moves.map moveNotationPart)⟩

/-- The per-rank transformation of `_transform_for_black`. -/
def transformRanked (rp : RankedPlay) : RankedPlay :=
  ⟨rp.rank, transform_play rp.play, -rp.equity, 1 - rp.win_probability,
    rp.equity_difference⟩

/-- `_transform_for_black` itself. -/
def transformForBlack (r : EvaluateResponse) : EvaluateResponse :=
  ⟨transform_play r.best_play, -r.best_equity, r.all_plays.map transformRanked⟩

/-! ## Position identifier (`_make_position_id`, lines 360-404) -/

/-- The raw bit sequence built by `_make_position_id` before the 80-bit
truncation: for player 0 (white) the point indices `0..23` in ascending
order, each contributing `max(0, points[i])` one-bits and a zero-bit,
then white's bar run; then for player 1 (black) the indices `23..0` in
descending order with `max(0, -points[i])` one-bits each, then black's
bar run.  `[1] * n` for a negative Python int is empty, hence `Int.toNat`
(which is `max 0 ·` composed with the cast). -/
def positionBits (points : List Int) (bar : List Int) : List Nat :=
  ((List.range 24).flatMap fun i => List.replicate (points.getD i 0).toNat 1 ++ [0])
    ++ (List.replicate (bar.getD 0 0).toNat 1 ++ [0])
    ++ (((List.range 24).reverse).flatMap fun i =>
          List.replicate (-(points.getD i 0)).toNat 1 ++ [0])
    ++ (List.replicate (bar.getD 1 0).toNat 1 ++ [0])

/-- `bits = (bits + [0] * 80)[:80]`. -/
def positionBits80 (points : List Int) (bar : List Int) : List Nat :=
  (positionBits points bar ++ List.replicate 80 0).take 80

/-- Byte `j` of the packed identifier:
`data[i // 8] |= 1 << (i % 8)` for every set bit index `i`,
i.e. byte `j = Σ_{k<8} bit(8*j+k) * 2^k` (least-significant bit first). -/
def byteFromBits (bits : List Nat) (j : Nat) : Nat :=
  ((List.range 8).map fun k => (if bits.getD (8 * j + k) 0 ≠ 0 then 1 else 0) * 2 ^ k).sum

/-- The ten packed bytes (`data = bytearray(10)`). -/
def bytesOfBits (bits : List Nat) : List Nat :=
  (List.range 10).map (byteFromBits bits)

/-! Base64 rendering (`base64.b64encode(data).decode('ascii').rstrip('=')`).
Encoding 10 bytes and stripping the trailing `=` padding is the same as
emitting the sextets of each 3-byte group and, for the final partial
group, only the sextets that carry data; that unpadded form is what
`sextetsOfBytes` produces. -/

/-- The base64 alphabet. -/
def b64chars : List Char :=
  ("ABCDEFGHIJKLMNOPQRSTUVWXYZabcdefghijklmnopqrstuvwxyz0123456789+/").toList

/-- Bytes to unpadded base64 sextet values. -/
def sextetsOfBytes : List Nat → List Nat
  | a :: b :: c :: rest =>
      [a / 4, (a % 4) * 16 + b / 16, (b % 16) * 4 + c / 64, c % 64]
        ++ sextetsOfBytes rest
  | [a, b] => [a / 4, (a % 4) * 16 + b / 16, (b % 16) * 4]
  | [a] => [a / 4, (a % 4) * 16]
  | [] => []

/-- Decoding: sextet values back to bytes (inverse of `sextetsOfBytes`
on byte lists; used to state that the identifier decodes to 10 bytes). -/
def bytesOfSextets : List Nat → List Nat
  | s1 :: s2 :: s3 :: s4 :: rest =>
      [s1 * 4 + s2 / 16, (s2 % 16) * 16 + s3 / 4, (s3 % 4) * 64 + s4]
        ++ bytesOfSextets rest
  | [s1, s2, s3] => [s1 * 4 + s2 / 16, (s2 % 16) * 16 + s3 / 4]
  | [s1, s2] => [s1 * 4 + s2 / 16]
  | _ => []

/-- Sextet value to base64 character. -/
def sextetToChar (s : Nat) : Char := b64chars.getD s 'A'

/-- Base64 character back to its sextet value. -/
def charToSextet (c : Char) : Nat := b64chars.indexOf c

/-- `_make_position_id`: pack the (truncated/padded) bits into 10 bytes
and render them as unpadded base64 text. -/
def makePositionId (points : List Int) (bar : List Int) : String :=
  String.mk ((sextetsOfBytes (bytesOfBits (positionBits80 points bar))).map sextetToChar)

/-- Decoding an unpadded base64 string back to its bytes (the spec's
"the identifier always decodes to exactly 10 bytes"). -/
def b64DecodeBytes (s : String) : List Nat :=
  bytesOfSextets (s.toList.map charToSextet)

/-- Modelled from the spec's description of the bit layout: read the bit
sequence as runs of 1-bits, each terminated by a 0-bit, and return the
run lengths; `acc` is the length of the run currently being read. -/
def decodeRunsAux : List Nat → Nat → List Nat
  | [], _ => []
  | b :: rest, acc =>
    if b = 0 then acc :: decodeRunsAux rest 0 else decodeRunsAux rest (acc + 1)

/-- The 50 checker counts an identifier's bit layout stands for:
white's 24 points and bar, then black's 24 points (in black's own frame)
and bar. -/
def decodePositionCounts (bits : List Nat) : List Nat :=
  (decodeRunsAux bits 0).take 50

/-- The count list `_make_position_id` encodes, in encoding order. -/
def posCounts (points : List Int) (bar : List Int) : List Nat :=
  ((List.range 24).map fun i => (points.getD i 0).toNat)
    ++ [(bar.getD 0 0).toNat]
    ++ (((List.range 24).reverse).map fun i => (-(points.getD i 0)).toNat)
    ++ [(bar.getD 1 0).toNat]

/-- Run-length encoding of a count list (the building block of
`positionBits`). -/
def runEncode (cs : List Nat) : List Nat :=
  cs.flatMap fun c => List.replicate c 1 ++ [0]

/-! ## Notation parsing (`_parse_notation`, lines 462-533)

String manipulation is done on `List Char` so that every function is a
plain structural recursion the kernel can evaluate. -/

/-- Digit characters to their numeric value (`int` on a digit string). -/
def digitsToNat (ds : List Char) : Nat :=
  ds.foldl (fun a c => a * 10 + (c.toNat - '0'.toNat)) 0

/-- `re.search(r'\((\d+)\)', part)`: scan left to right for `(`, a
non-empty maximal digit run, then `)`; return the first match's number.
(With this pattern the regex engine's backtracking never helps: a shorter
digit run is followed by a digit, not `)`.) -/
def findMult : List Char → Option Nat
  | [] => none
  | c :: rest =>
    if c = '(' then
      match rest.dropWhile Char.isDigit with
      | ')' :: _ =>
        if rest.takeWhile Char.isDigit ≠ [] then
          some (digitsToNat (rest.takeWhile Char.isDigit))
        else findMult rest
      | _ => findMult rest
    else findMult rest

/-- Fuel-based loop of `removeMult`; the fuel starts at the list length
and stays an upper bound for the remaining input (the list shrinks by at
least one character per step), so the `0` case is never reached from
`removeMult` itself.  Fuel keeps the recursion structural so that the
kernel can evaluate it. -/
def removeMultGo : Nat → List Char → List Char
  | 0, _ => []
  | _, [] => []
  | fuel + 1, c :: rest =>
    if c = '(' then
      match rest.dropWhile Char.isDigit with
      | ')' :: tail =>
        if rest.takeWhile Char.isDigit ≠ [] then removeMultGo fuel tail
        else c :: removeMultGo fuel rest
      | _ => c :: removeMultGo fuel rest
    else c :: removeMultGo fuel rest

/-- `re.sub(r'\(\d+\)', '', part)`: remove every (non-overlapping,
left-to-right) occurrence of a parenthesized digit run. -/
def removeMult (cs : List Char) : List Char := removeMultGo cs.length cs

/-- Accumulator loop of `splitWS`; `acc` holds the current token's
characters in reverse. -/
def splitWSAux : List Char → List Char → List (List Char)
  | [], acc => if acc = [] then [] else [acc.reverse]
  | c :: rest, acc =>
    if c.isWhitespace then
      if acc = [] then splitWSAux rest []
      else acc.reverse :: splitWSAux rest []
    else splitWSAux rest (c :: acc)

/-- Python `str.split()` (no argument): split on whitespace runs and drop
empty pieces. -/
def splitWS (cs : List Char) : List (List Char) := splitWSAux cs []

/-- `part.split('/')` for the single-character separator `/` (keeps empty
segments, like Python's `str.split` with an argument). -/
def splitSlash (cs : List Char) : List (List Char) :=
  match cs with
  | [] => [[]]
  | c :: rest =>
    if c = '/' then [] :: splitSlash rest
    else
      match splitSlash rest with
      | [] => [[c]]
      | s :: ss => (c :: s) :: ss

/-- `str.strip()`: drop leading and trailing whitespace. -/
def pyStrip (cs : List Char) : List Char :=
  ((cs.dropWhile Char.isWhitespace).reverse.dropWhile Char.isWhitespace).reverse

/-- `s.replace('*', '')`. -/
def dropStars (cs : List Char) : List Char := cs.filter (fun c => c ≠ '*')

/-- `s.lower()` (ASCII suffices for the `"bar"` / `"off"` tests). -/
def pyLower (cs : List Char) : List Char := cs.map Char.toLower

/-- Python `int(s)`: optional surrounding whitespace, an optional sign,
then a non-empty digit run; anything else raises `ValueError` (`none`).
(Underscore digit grouping, which CPython also accepts, does not occur in
engine notation and is not modelled.) -/
def pyInt (s : List Char) : Option Int :=
  match pyStrip s with
  | '-' :: ds => if ds ≠ [] ∧ ds.all Char.isDigit then some (-(digitsToNat ds : Int)) else none
  | '+' :: ds => if ds ≠ [] ∧ ds.all Char.isDigit then some (digitsToNat ds : Int) else none
  | ds => if ds ≠ [] ∧ ds.all Char.isDigit then some (digitsToNat ds : Int) else none

/-- One adjacent segment pair `(segments[i], segments[i+1])` of a token:
detect the hit marker on the destination, strip `*` from both, resolve
`bar` / `off`, and emit the move `count` times.  `none` models the
`ValueError` that `int(...)` raises on a non-numeric segment. -/
def movesOfPair (count : Nat) (f t : List Char) : Option (List MoveResponse) :=
  let from_str0 := pyStrip f
  let to_str0 := pyStrip t
  let segment_hit := to_str0.contains '*'
  let from_str := dropStars from_str0
  let to_str := dropStars to_str0
  match (if pyLower from_str = "bar".toList then some 0 else pyInt from_str) with
  | none => none
  | some from_pt =>
    if pyLower to_str = "off".toList then
      some (List.replicate count ⟨from_pt, 0, from_pt, segment_hit, true⟩)
    else
      match pyInt to_str with
      | none => none
      | some to_pt =>
        some (List.replicate count
          ⟨from_pt, to_pt, ((from_pt - to_pt).natAbs : Int), segment_hit, false⟩)

/-- Option-valued concat-map: the first failing element aborts the whole
loop (the Python exception propagates). -/
def optFlat {α β : Type} (f : α → Option (List β)) : List α → Option (List β)
  | [] => some []
  | a :: rest =>
    match f a, optFlat f rest with
    | some xs, some ys => some (xs ++ ys)
    | _, _ => none

/-- The moves contributed by one whitespace-separated token of the
notation: multiplier extraction, `/`-splitting, and the per-pair loop
(`if len(segments) >= 2` guards the whole block). -/
def movesOfPart (part : List Char) : Option (List MoveResponse) :=
  let count := (findMult part).getD 1
  let part' := removeMult part
  let segments := splitSlash part'
  if 2 ≤ segments.length then
    optFlat (fun pr => movesOfPair count pr.1 pr.2) (segments.zip segments.tail)
  else some []

/-- `_parse_notation`: tokenize, collect the moves of every token, run the
die-splitting post-processing, and keep the original notation text. -/
def parseNotation (s : String) : Option PlayResponse :=
  match optFlat movesOfPart (splitWS s.toList) with
  | none => none
  | some moves => some ⟨processMoves moves, s⟩

/-! ## Ranked-play parsing (`_parse_evaluation`, lines 441-460)

The `re.finditer` pass over the raw hint text is abstracted as the list
of `(rank, notation, equity)` triples the regex produced; everything the
function does with those matches is modelled exactly. -/

/-- The fallback entry appended when nothing matched. -/
def fallbackPlay : RankedPlay := ⟨1, ⟨[], "No move"⟩, 0, 1/2, 0⟩

/-- The `for m in move_pat.finditer(output)` loop.  `firstEq` is
`plays[0].equity` of the plays accumulated so far (`none` while the list
is still empty); `win_probability` stays at its model default `0.5`. -/
def buildRanked : List (Int × String × ℚ) → Option ℚ → Option (List RankedPlay)
  | [], _ => some []
  | (rank, nota, eq) :: rest, firstEq =>
    match parseNotation nota with
    | none => none
    | some play =>
      let diff : ℚ := if rank = 1 then 0 else (match firstEq with
        | some e0 => e0 - eq
        | none => 0)
      match buildRanked rest (some (firstEq.getD eq)) with
      | none => none
      | some rps => some (⟨rank, play, eq, 1/2, diff⟩ :: rps)

/-- `_parse_evaluation` over the abstracted match list; `none` models the
`ValueError` that escapes when a matched notation fails to parse. -/
def parseEvaluationM (ms : List (Int × String × ℚ)) : Option EvaluateResponse :=
  match buildRanked ms none with
  | none => none
  | some [] => some ⟨fallbackPlay.play, fallbackPlay.equity, [fallbackPlay]⟩
  | some (p :: rest) => some ⟨p.play, p.equity, p :: rest⟩

/-! ## Cube parsing (`_parse_cube`, lines 535-552)

The three `re.search` extractions over the raw text are abstracted as
three `Option ℚ` values (the matched equity of each label, `none` when
the label is missing); defaulting, maximum selection and tie order are
modelled exactly. -/

/-- `_parse_cube` from the three optional labeled equities. -/
def parseCube (nd dt dp : Option ℚ) : CubeResponse :=
  let nd_eq := nd.getD 0
  let dt_eq := dt.getD 0
  let dp_eq := dp.getD 1
  let best := max nd_eq (max dt_eq dp_eq)
  if best = nd_eq then
    ⟨"no_double", nd_eq, dt_eq, dp_eq, "No Double", 1/2, 0⟩
  else if best = dt_eq then
    ⟨"double_take", nd_eq, dt_eq, dp_eq, "Double Take", 1/2, 0⟩
  else
    ⟨"double_pass", nd_eq, dt_eq, dp_eq, "Double Pass", 1/2, 0⟩

/-! ## Evaluation orchestrator (`GnuBgEngine.evaluate`, lines 124-192)

The engine subprocess is abstracted as `send : String → Option String`
(`none` models the command raising — transport fault or timeout escalated
to an exception) and the `_parse_evaluation` regex as
`matcher : String → List (Int × String × ℚ)`.  The mock strategy is out of
scope (randomized), so the result `_mock_evaluate` would return is an
abstract parameter `mockResult`.  The function returns the response
together with the list of commands written to the engine. -/

/-- `white_count = sum(max(0, p) for p in req.points) + req.bar[0] +
req.borne_off[0]`. -/
def whiteTotal (req : EvaluateRequest) : Int :=
  (req.points.map fun p => max 0 p).sum + req.bar.getD 0 0 + req.borne_off.getD 0 0

/-- `black_count = sum(max(0, -p) for p in req.points) + req.bar[1] +
req.borne_off[1]`. -/
def blackTotal (req : EvaluateRequest) : Int :=
  (req.points.map fun p => max 0 (-p)).sum + req.bar.getD 1 0 + req.borne_off.getD 1 0

/-- `needle in hay` for strings, via char lists. -/
def subList (needle : List Char) : List Char → Bool
  | [] => needle.isEmpty
  | c :: t => needle.isPrefixOf (c :: t) || subList needle t

/-- `needle in hay` on `String`. -/
def strIn (needle hay : String) : Bool := subList needle.toList hay.toList

/-- The command sequence and fallback structure of `evaluate`:
mock short-circuit, checker-count validation, then under the lock the
commands `set evaluation chequer eval plies`, `new game`, `set board`,
`set turn`, `show board`, `set dice`, `hint`; an `Illegal` set-board
reply, an empty or marker-less hint reply, a failed parse, or any raising
command falls back to `mockResult`. -/
def evaluateM (mockMode : Bool) (mockResult : EvaluateResponse)
    (send : String → Option String)
    (matcher : String → List (Int × String × ℚ))
    (req : EvaluateRequest) : EvaluateResponse × List String :=
  if mockMode then (mockResult, [])
  else if ¬ (whiteTotal req = 15 ∧ blackTotal req = 15) then (mockResult, [])
  else
    let c1 := "set evaluation chequer eval plies " ++ toString req.ply
    match send c1 with
    | none => (mockResult, [c1])
    | some _ =>
      match send "new game" with
      | none => (mockResult, [c1, "new game"])
      | some _ =>
        let c3 := "set board " ++ makePositionId req.points req.bar
        match send c3 with
        | none => (mockResult, [c1, "new game", c3])
        | some r3 =>
          if strIn "Illegal" r3 then (mockResult, [c1, "new game", c3])
          else
            let c4 := "set turn " ++
              toString (if req.player = "white" then (0 : Nat) else 1)
            match send c4 with
            | none => (mockResult, [c1, "new game", c3, c4])
            | some _ =>
              match send "show board" with
              | none => (mockResult, [c1, "new game", c3, c4, "show board"])
              | some _ =>
                let c6 := "set dice " ++ toString (req.dice.getD 0 0) ++ " " ++
                  toString (req.dice.getD 1 0)
                match send c6 with
                | none => (mockResult, [c1, "new game", c3, c4, "show board", c6])
                | some _ =>
                  let log := [c1, "new game", c3, c4, "show board", c6, "hint"]
                  match send "hint" with
                  | none => (mockResult, log)
                  | some out =>
                    if out = "" ∨ strIn "Eq.:" out = false then (mockResult, log)
                    else
                      match parseEvaluationM (matcher out) with
                      | none => (mockResult, log)
                      | some res =>
                        ((if req.player = "black" then transformForBlack res else res),
                          log)

/-- White's on-board-plus-bar checker count (the part of the side's 15
checkers that `_make_position_id` actually encodes; with nonnegative
borne-off counts the 15-per-side invariant bounds it by 15). -/
def whiteLoad (points bar : List Int) : Nat :=
  ((List.range 24).map fun i => (points.getD i 0).toNat).sum + (bar.getD 0 0).toNat

/-- Black's on-board-plus-bar checker count. -/
def blackLoad (points bar : List Int) : Nat :=
  ((List.range 24).map fun i => (-(points.getD i 0)).toNat).sum + (bar.getD 1 0).toNat

/-- The standard backgammon starting position in the application's board
representation (used as a concrete test vector). -/
def startBoard : List Int :=
  [-2, 0, 0, 0, 0, 5, 0, 3, 0, 0, 0, -5, 5, 0, 0, 0, -3, 0, -5, 0, 0, 0, 0, 2]

/-! # Theorems -/

/-! ## Base64 and bit-packing lemmas (for C9) -/

theorem bitsum_lt (f : Nat → Nat) (hf : ∀ k, f k ≤ 1) (n : Nat) :
    ((List.range n).map fun k => f k * 2 ^ k).sum < 2 ^ n := by
  induction n with
  | zero => simp
  | succ m ih =>
    rw [List.range_succ, List.map_append, List.sum_append]
    simp only [List.map_cons, List.map_nil, List.sum_cons, List.sum_nil]
    have h1 := hf m
    have hp : (2 : Nat) ^ (m + 1) = 2 ^ m + 2 ^ m := by ring
    have h2 : f m * 2 ^ m ≤ 2 ^ m := by
      calc f m * 2 ^ m ≤ 1 * 2 ^ m := Nat.mul_le_mul_right _ h1
        _ = 2 ^ m := one_mul _
    omega

theorem byteFromBits_lt (bits : List Nat) (j : Nat) : byteFromBits bits j < 256 := by
  have h := bitsum_lt (fun k => if bits.getD (8 * j + k) 0 ≠ 0 then 1 else 0)
    (fun k => by dsimp only; split <;> simp) 8
  simpa [byteFromBits] using h

theorem bytesOfBits_lt (bits : List Nat) : ∀ x ∈ bytesOfBits bits, x < 256 := by
  intro x hx
  simp only [bytesOfBits, List.mem_map] at hx
  obtain ⟨j, _, rfl⟩ := hx
  exact byteFromBits_lt bits j

theorem sextetsOfBytes_lt : ∀ bs : List Nat, (∀ x ∈ bs, x < 256) →
    ∀ s ∈ sextetsOfBytes bs, s < 64
  | [], _ => by simp [sextetsOfBytes]
  | [a], h => by
    have ha := h a (by simp)
    intro s hs
    simp only [sextetsOfBytes, List.mem_cons, List.not_mem_nil, or_false] at hs
    rcases hs with rfl | rfl <;> omega
  | [a, b], h => by
    have ha := h a (by simp)
    have hb := h b (by simp)
    intro s hs
    simp only [sextetsOfBytes, List.mem_cons, List.not_mem_nil, or_false] at hs
    rcases hs with rfl | rfl | rfl <;> omega
  | a :: b :: c :: rest, h => by
    have ha := h a (by simp)
    have hb := h b (by simp)
    have hc := h c (by simp)
    intro s hs
    simp only [sextetsOfBytes, List.cons_append, List.nil_append, List.mem_cons] at hs
    rcases hs with rfl | rfl | rfl | rfl | hs
    · omega
    · omega
    · omega
    · omega
    · exact sextetsOfBytes_lt rest (fun x hx => h x (by simp [hx])) s hs

theorem bytesOfSextets_sextetsOfBytes : ∀ bs : List Nat, (∀ x ∈ bs, x < 256) →
    bytesOfSextets (sextetsOfBytes bs) = bs
  | [], _ => rfl
  | [a], h => by
    have ha := h a (by simp)
    simp only [sextetsOfBytes, bytesOfSextets, List.cons.injEq, and_true]
    omega
  | [a, b], h => by
    have ha := h a (by simp)
    have hb := h b (by simp)
    simp only [sextetsOfBytes, bytesOfSextets, List.cons.injEq, and_true]
    constructor <;> omega
  | a :: b :: c :: rest, h => by
    have ha := h a (by simp)
    have hb := h b (by simp)
    have hc := h c (by simp)
    have ih := bytesOfSextets_sextetsOfBytes rest (fun x hx => h x (by simp [hx]))
    simp only [sextetsOfBytes, List.cons_append, List.nil_append]
    simp only [bytesOfSextets, ih]
    simp only [List.cons_append, List.nil_append, List.cons.injEq, and_true]
    exact ⟨by omega, by omega, by omega⟩

theorem charSextet_roundtrip : ∀ s : Nat, s < 64 → charToSextet (sextetToChar s) = s := by
  decide

theorem map_charSextet (l : List Nat) (h : ∀ s ∈ l, s < 64) :
    (l.map sextetToChar).map charToSextet = l := by
  rw [List.map_map]
  have hpt : ∀ s ∈ l, (charToSextet ∘ sextetToChar) s = id s := fun s hs =>
    charSextet_roundtrip s (h s hs)
  rw [List.map_congr_left hpt, List.map_id]

/-! ## C9: the identifier is always 80 bits / 10 bytes -/

/-- C9: for any board and bar input, the bit sequence is truncated or
padded to exactly 80 bits, packed into exactly 10 bytes, and the
unpadded base64 rendering decodes back to exactly those 10 bytes. -/
theorem position_id_80bits (points bar : List Int) :
    (positionBits80 points bar).length = 80 ∧
    (bytesOfBits (positionBits80 points bar)).length = 10 ∧
    b64DecodeBytes (makePositionId points bar)
      = bytesOfBits (positionBits80 points bar) ∧
    (b64DecodeBytes (makePositionId points bar)).length = 10 := by
  have hlen80 : (positionBits80 points bar).length = 80 := by
    unfold positionBits80
    rw [List.length_take, List.length_append, List.length_replicate]
    omega
  have hb10 : (bytesOfBits (positionBits80 points bar)).length = 10 := by
    simp [bytesOfBits]
  have hdec : b64DecodeBytes (makePositionId points bar)
      = bytesOfBits (positionBits80 points bar) := by
    unfold b64DecodeBytes makePositionId
    have hts : ∀ l : List Char, (String.mk l).toList = l := fun _ => rfl
    rw [hts, map_charSextet _ (sextetsOfBytes_lt _ (bytesOfBits_lt _)),
      bytesOfSextets_sextetsOfBytes _ (bytesOfBits_lt _)]
  exact ⟨hlen80, hb10, hdec, by rw [hdec]; exact hb10⟩

/-! ## Run-length lemmas and C1: round-trip / injectivity -/

theorem decodeRunsAux_replicate_one (n : Nat) (t : List Nat) (acc : Nat) :
    decodeRunsAux (List.replicate n 1 ++ 0 :: t) acc = (acc + n) :: decodeRunsAux t 0 := by
  induction n generalizing acc with
  | zero => simp [decodeRunsAux]
  | succ k ih =>
    simp only [List.replicate_succ, List.cons_append, decodeRunsAux, if_neg one_ne_zero,
      List.append_eq]
    rw [ih]
    congr 1
    omega

theorem decodeRunsAux_runEncode (cs : List Nat) (t : List Nat) :
    decodeRunsAux (runEncode cs ++ t) 0 = cs ++ decodeRunsAux t 0 := by
  induction cs with
  | nil => simp [runEncode]
  | cons c cs' ih =>
    have hsplit : runEncode (c :: cs') ++ t
        = List.replicate c 1 ++ 0 :: (runEncode cs' ++ t) := by
      simp [runEncode, List.flatMap_cons, List.append_assoc]
    rw [hsplit, decodeRunsAux_replicate_one, ih]
    simp

theorem decodeRunsAux_replicate_zero (k : Nat) :
    decodeRunsAux (List.replicate k 0) 0 = List.replicate k 0 := by
  induction k with
  | zero => rfl
  | succ n ih => simp [List.replicate_succ, decodeRunsAux, ih]

theorem runEncode_length (cs : List Nat) : (runEncode cs).length = cs.sum + cs.length := by
  induction cs with
  | nil => rfl
  | cons c cs' ih =>
    simp only [runEncode, List.flatMap_cons, List.length_append, List.length_cons,
      List.length_nil, List.length_replicate, List.sum_cons] at *
    omega

theorem runEncode_of_map {α : Type} (f : α → Nat) (l : List α) :
    runEncode (l.map f) = l.flatMap fun a => List.replicate (f a) 1 ++ [0] := by
  induction l with
  | nil => rfl
  | cons a t ih =>
    simp only [List.map_cons, runEncode, List.flatMap_cons] at *
    rw [ih]

theorem runEncode_append (l1 l2 : List Nat) :
    runEncode (l1 ++ l2) = runEncode l1 ++ runEncode l2 := by
  simp [runEncode, List.flatMap_append]

theorem runEncode_singleton (c : Nat) : runEncode [c] = List.replicate c 1 ++ [0] := by
  simp [runEncode]

theorem positionBits_eq (points bar : List Int) :
    positionBits points bar = runEncode (posCounts points bar) := by
  unfold positionBits posCounts
  rw [runEncode_append, runEncode_append, runEncode_append,
    runEncode_singleton, runEncode_singleton, runEncode_of_map, runEncode_of_map]

theorem posCounts_length (points bar : List Int) : (posCounts points bar).length = 50 := by
  simp [posCounts]

theorem posCounts_sum (points bar : List Int) :
    (posCounts points bar).sum = whiteLoad points bar + blackLoad points bar := by
  unfold posCounts whiteLoad blackLoad
  simp only [List.sum_append, List.sum_cons, List.sum_nil]
  have hrev : ((List.range 24).reverse.map fun i => (-(points.getD i 0)).toNat).sum
      = ((List.range 24).map fun i => (-(points.getD i 0)).toNat).sum := by
    rw [List.map_reverse, List.sum_reverse]
  omega

theorem positionBits80_decode (points bar : List Int)
    (hw : whiteLoad points bar ≤ 15) (hk : blackLoad points bar ≤ 15) :
    decodePositionCounts (positionBits80 points bar) = posCounts points bar := by
  have hlen : (positionBits points bar).length ≤ 80 := by
    rw [positionBits_eq, runEncode_length, posCounts_sum, posCounts_length]
    omega
  have h80 : positionBits80 points bar
      = positionBits points bar
        ++ List.replicate (80 - (positionBits points bar).length) 0 := by
    unfold positionBits80
    rw [List.take_append_eq_append_take, List.take_of_length_le hlen,
      List.take_replicate]
    congr 2
    omega
  unfold decodePositionCounts
  rw [h80, positionBits_eq, decodeRunsAux_runEncode, decodeRunsAux_replicate_zero,
    List.take_append_eq_append_take,
    List.take_of_length_le (le_of_eq (posCounts_length points bar)),
    posCounts_length]
  simp

theorem map_range_eq {n : Nat} {f g : Nat → Nat}
    (h : (List.range n).map f = (List.range n).map g) : ∀ i, i < n → f i = g i := by
  intro i hi
  have hx := congrArg (fun l => l.getD i 0) h
  simpa [List.getD_eq_getElem?_getD, List.getElem?_map, List.getElem?_range hi] using hx

theorem posCounts_inj (points bar points' bar' : List Int)
    (hp : points.length = 24) (hp' : points'.length = 24)
    (hb : bar.length = 2) (hb' : bar'.length = 2)
    (hbn : ∀ x ∈ bar, 0 ≤ x) (hbn' : ∀ x ∈ bar', 0 ≤ x)
    (h : posCounts points bar = posCounts points' bar') :
    points = points' ∧ bar = bar' := by
  unfold posCounts at h
  have h1 := List.append_inj h (by simp)
  obtain ⟨h2, hb1⟩ := h1
  have h3 := List.append_inj h2 (by simp)
  obtain ⟨h4, hbl⟩ := h3
  have h5 := List.append_inj h4 (by simp)
  obtain ⟨hwl, hb0⟩ := h5
  have hwpt := map_range_eq hwl
  have hblpt : ∀ i, i < 24 →
      (-(points.getD i 0)).toNat = (-(points'.getD i 0)).toNat := by
    rw [List.map_reverse, List.map_reverse] at hbl
    exact map_range_eq (List.reverse_inj.mp hbl)
  simp only [List.cons.injEq, and_true] at hb0 hb1
  constructor
  · have hpt : ∀ i, i < 24 → points.getD i 0 = points'.getD i 0 := by
      intro i hi
      have e1 := hwpt i hi
      have e2 := hblpt i hi
      omega
    refine List.ext_getElem (by omega) ?_
    intro i hi1 hi2
    exact (List.getD_eq_getElem points 0 hi1).symm.trans
      ((hpt i (by omega)).trans (List.getD_eq_getElem points' 0 hi2))
  · have n1 : 0 ≤ bar.getD 0 0 := by
      have hx := hbn _ (List.getElem_mem (show 0 < bar.length by omega))
      rwa [← List.getD_eq_getElem bar 0 (show 0 < bar.length by omega)] at hx
    have n2 : 0 ≤ bar'.getD 0 0 := by
      have hx := hbn' _ (List.getElem_mem (show 0 < bar'.length by omega))
      rwa [← List.getD_eq_getElem bar' 0 (show 0 < bar'.length by omega)] at hx
    have n3 : 0 ≤ bar.getD 1 0 := by
      have hx := hbn _ (List.getElem_mem (show 1 < bar.length by omega))
      rwa [← List.getD_eq_getElem bar 0 (show 1 < bar.length by omega)] at hx
    have n4 : 0 ≤ bar'.getD 1 0 := by
      have hx := hbn' _ (List.getElem_mem (show 1 < bar'.length by omega))
      rwa [← List.getD_eq_getElem bar' 0 (show 1 < bar'.length by omega)] at hx
    have hbd : ∀ i, i < 2 → bar.getD i 0 = bar'.getD i 0 := by
      intro i hi
      interval_cases i
      · omega
      · omega
    refine List.ext_getElem (by omega) ?_
    intro i hi1 hi2
    exact (List.getD_eq_getElem bar 0 hi1).symm.trans
      ((hbd i (by omega)).trans (List.getD_eq_getElem bar' 0 hi2))

/-- C1: on boards with 24 points, 2 nonnegative bar entries, and at most
15 encoded checkers a side (which the 15-per-side invariant guarantees),
decoding `_make_position_id`'s 80-bit layout as runs of 1-bits recovers
exactly the 50 encoded counts — white's points 0..23 then its bar, then
black's points in descending index order then its bar — and the encoding
is injective: no information is lost to the 80-bit truncation. -/
theorem position_id_roundtrip_injective (points bar points' bar' : List Int)
    (hp : points.length = 24) (hb : bar.length = 2) (hbn : ∀ x ∈ bar, 0 ≤ x)
    (hw : whiteLoad points bar ≤ 15) (hk : blackLoad points bar ≤ 15)
    (hp' : points'.length = 24) (hb' : bar'.length = 2) (hbn' : ∀ x ∈ bar', 0 ≤ x)
    (hw' : whiteLoad points' bar' ≤ 15) (hk' : blackLoad points' bar' ≤ 15) :
    decodePositionCounts (positionBits80 points bar) = posCounts points bar ∧
    (positionBits80 points bar = positionBits80 points' bar' →
      points = points' ∧ bar = bar') := by
  refine ⟨positionBits80_decode points bar hw hk, ?_⟩
  intro he
  apply posCounts_inj points bar points' bar' hp hp' hb hb' hbn hbn'
  rw [← positionBits80_decode points bar hw hk,
    ← positionBits80_decode points' bar' hw' hk', he]

/-- Witness for C1 at the backgammon starting position. -/
theorem position_id_roundtrip_injective_witness :
    decodePositionCounts (positionBits80 startBoard [0, 0])
      = posCounts startBoard [0, 0] ∧
    (positionBits80 startBoard [0, 0] = positionBits80 startBoard [0, 0] →
      startBoard = startBoard ∧ ([0, 0] : List Int) = [0, 0]) :=
  position_id_roundtrip_injective startBoard [0, 0] startBoard [0, 0]
    (by decide) (by decide) (by decide) (by decide) (by decide)
    (by decide) (by decide) (by decide) (by decide) (by decide)

/-! ## C5: no protocol fault reaches the caller -/

/-- Run characterization of `evaluate`: either the call answers with the
mock result, or the request was valid, every command in the sequence
succeeded, the set-board reply did not contain `Illegal`, the hint output
was non-empty with the `Eq.:` marker and parsed, and the answer is the
parsed (for black, transformed) response. -/
theorem evaluateM_run (mockResult : EvaluateResponse)
    (send : String → Option String) (matcher : String → List (Int × String × ℚ))
    (req : EvaluateRequest) :
    (evaluateM false mockResult send matcher req).1 = mockResult ∨
    ((whiteTotal req = 15 ∧ blackTotal req = 15) ∧
     (∃ r1, send ("set evaluation chequer eval plies " ++ toString req.ply) = some r1) ∧
     (∃ r2, send "new game" = some r2) ∧
     (∃ r3, send ("set board " ++ makePositionId req.points req.bar) = some r3 ∧
        strIn "Illegal" r3 = false) ∧
     (∃ r4, send ("set turn " ++
        toString (if req.player = "white" then (0 : Nat) else 1)) = some r4) ∧
     (∃ r5, send "show board" = some r5) ∧
     (∃ r6, send ("set dice " ++ toString (req.dice.getD 0 0) ++ " " ++
        toString (req.dice.getD 1 0)) = some r6) ∧
     (∃ out res, send "hint" = some out ∧ out ≠ "" ∧ strIn "Eq.:" out = true ∧
        parseEvaluationM (matcher out) = some res ∧
        (evaluateM false mockResult send matcher req).1 =
          (if req.player = "black" then transformForBlack res else res))) := by
  unfold evaluateM
  simp only [Bool.false_eq_true, if_false]
  split
  · left; rfl
  rename_i hv
  split
  · left; rfl
  rename_i r1 h1
  split
  · left; rfl
  rename_i r2 h2
  split
  · left; rfl
  rename_i r3 h3
  split
  · left; rfl
  rename_i hIll
  split
  · left; rfl
  rename_i r4 h4
  split
  · left; rfl
  rename_i r5 h5
  split
  · left; rfl
  rename_i r6 h6
  split
  · left; rfl
  rename_i out hout
  split
  · left; rfl
  rename_i hcond
  split
  · left; rfl
  rename_i res hres
  right
  push_neg at hcond
  refine ⟨not_not.mp hv, ⟨r1, h1⟩, ⟨r2, h2⟩, ⟨r3, h3, ?_⟩, ⟨r4, h4⟩, ⟨r5, h5⟩,
    ⟨r6, h6⟩, out, res, hout, hcond.1, ?_, hres, rfl⟩
  · cases hb : strIn "Illegal" r3
    · rfl
    · exact absurd hb hIll
  · rcases hcond with ⟨_, h2x⟩
    cases hb : strIn "Eq.:" out
    · exact absurd hb h2x
    · rfl

/-- C5: in non-mock mode, no protocol fault is surfaced to the caller.
Each named fault yields the mock result: a raising command anywhere in
the sequence (including `hint`), an `Illegal` set-board reply, an empty
or `Eq.:`-less hint output, and a notation parse that raises.  And the
call is total: the only other outcome is the successfully parsed (for
black, transformed) response. -/
theorem evaluate_never_faults (mockResult : EvaluateResponse)
    (send : String → Option String) (matcher : String → List (Int × String × ℚ))
    (req : EvaluateRequest) :
    (∀ cmd ∈ ["set evaluation chequer eval plies " ++ toString req.ply, "new game",
        "set board " ++ makePositionId req.points req.bar,
        "set turn " ++ toString (if req.player = "white" then (0 : Nat) else 1),
        "show board",
        "set dice " ++ toString (req.dice.getD 0 0) ++ " " ++
          toString (req.dice.getD 1 0),
        "hint"],
      send cmd = none →
        (evaluateM false mockResult send matcher req).1 = mockResult) ∧
    (∀ r3, send ("set board " ++ makePositionId req.points req.bar) = some r3 →
      strIn "Illegal" r3 = true →
      (evaluateM false mockResult send matcher req).1 = mockResult) ∧
    (∀ out, send "hint" = some out → (out = "" ∨ strIn "Eq.:" out = false) →
      (evaluateM false mockResult send matcher req).1 = mockResult) ∧
    (∀ out, send "hint" = some out → parseEvaluationM (matcher out) = none →
      (evaluateM false mockResult send matcher req).1 = mockResult) ∧
    ((evaluateM false mockResult send matcher req).1 = mockResult ∨
      ∃ out res, send "hint" = some out ∧ out ≠ "" ∧ strIn "Eq.:" out = true ∧
        parseEvaluationM (matcher out) = some res ∧
        (evaluateM false mockResult send matcher req).1 =
          (if req.player = "black" then transformForBlack res else res)) := by
  obtain hm | hrun := evaluateM_run mockResult send matcher req
  · exact ⟨fun _ _ _ => hm, fun _ _ _ => hm, fun _ _ _ => hm, fun _ _ _ => hm,
      Or.inl hm⟩
  · obtain ⟨hv, ⟨r1, h1⟩, ⟨r2, h2⟩, ⟨r3, h3, hIll⟩, ⟨r4, h4⟩, ⟨r5, h5⟩, ⟨r6, h6⟩,
      out, res, hout, hne, hEq, hres, hfin⟩ := hrun
    refine ⟨?_, ?_, ?_, ?_, Or.inr ⟨out, res, hout, hne, hEq, hres, hfin⟩⟩
    · intro cmd hcmd hnone
      simp only [List.mem_cons, List.not_mem_nil, or_false] at hcmd
      rcases hcmd with rfl | rfl | rfl | rfl | rfl | rfl | rfl <;> simp_all
    · intro r3x h3x hI
      rw [h3] at h3x
      injection h3x with h3x
      subst h3x
      rw [hIll] at hI
      simp at hI
    · intro outx houtx hbad
      rw [hout] at houtx
      injection houtx with houtx
      subst houtx
      rcases hbad with hb | hb
      · exact absurd hb hne
      · rw [hEq] at hb
        simp at hb
    · intro outx houtx hpn
      rw [hout] at houtx
      injection houtx with houtx
      subst houtx
      rw [hres] at hpn
      simp at hpn

/-- Witness for C5: with the starting board, an oracle replying
`Illegal position` to the set-board command yields the mock result, and
an oracle on which every command raises yields the mock result. -/
theorem evaluate_never_faults_witness :
    (evaluateM false ⟨⟨[], "No move"⟩, 0, []⟩
        (fun c => if c = "set board " ++ makePositionId startBoard [0, 0]
          then some "Illegal position" else some "ok")
        (fun _ => []) ⟨startBoard, [0, 0], [0, 0], [3, 1], "white", 2⟩).1
      = ⟨⟨[], "No move"⟩, 0, []⟩ ∧
    (evaluateM false ⟨⟨[], "No move"⟩, 0, []⟩ (fun _ => none) (fun _ => [])
        ⟨startBoard, [0, 0], [0, 0], [3, 1], "white", 2⟩).1
      = ⟨⟨[], "No move"⟩, 0, []⟩ := by
  constructor
  · exact (evaluate_never_faults _ _ _ _).2.1 "Illegal position"
      (by rw [if_pos rfl]) (by decide)
  · exact (evaluate_never_faults _ _ _ _).1
      ("set evaluation chequer eval plies " ++ toString (2 : Int)) (by decide) rfl

/-! ## Helper lemmas -/

theorem findSplit_eq (t : Int) (h7 : 7 ≤ t) (h12 : t ≤ 12) :
    dieCandidates.find? (fun d1 => decide (1 ≤ t - d1 ∧ t - d1 ≤ 6)) = some (t - 6) := by
  interval_cases t <;> decide

theorem getD_map_fix {α : Type} (f : α → α) (l : List α) (d : α) (hd : f d = d)
    (i : Nat) : (l.map f).getD i d = f (l.getD i d) := by
  by_cases hi : i < l.length
  · rw [List.getD_eq_getElem (l.map f) d (by simpa using hi),
      List.getD_eq_getElem l d hi, List.getElem_map]
  · rw [List.getD_eq_default (l.map f) d (by simpa using not_lt.mp hi),
      List.getD_eq_default l d (not_lt.mp hi), hd]

/-! ## C2: compound-move splitting -/

/-- C2: a parsed move with die value in `[7,12]` that is not a bear-off is
replaced by exactly two moves with die values `total-6` and `6` (each in
`[1,6]`, summing to the total, and `total-6` is the smallest admissible
first die), the intermediate point is `from ± d1` by direction, the hit
flag sits only on the second sub-move; a move with die value above 12
passes through unchanged. -/
theorem compound_move_split_spec (m : MoveResponse) :
    (7 ≤ m.die_used → m.die_used ≤ 12 → m.is_bear_off = false →
      1 ≤ m.die_used - 6 ∧ m.die_used - 6 ≤ 6 ∧ (m.die_used - 6) + 6 = m.die_used ∧
      (∀ d : Int, 1 ≤ d → d < m.die_used - 6 →
        ¬ (1 ≤ m.die_used - d ∧ m.die_used - d ≤ 6)) ∧
      splitOne m =
        [⟨m.from_point,
          (if m.from_point < m.to_point then m.from_point + (m.die_used - 6)
            else m.from_point - (m.die_used - 6)),
          m.die_used - 6, false, false⟩,
         ⟨(if m.from_point < m.to_point then m.from_point + (m.die_used - 6)
            else m.from_point - (m.die_used - 6)),
          m.to_point, 6, m.is_hit, false⟩]) ∧
    (12 < m.die_used → splitOne m = [m]) := by
  constructor
  · intro h7 h12 hb
    refine ⟨by omega, by omega, by omega, by intro d h1 h2; omega, ?_⟩
    unfold splitOne
    rw [if_pos ⟨by omega, hb⟩, if_pos h12, findSplit_eq m.die_used h7 h12]
    have h6 : m.die_used - (m.die_used - 6) = 6 := by ring
    simp [h6]
  · intro h
    unfold splitOne
    by_cases hb : m.is_bear_off = false
    · rw [if_pos ⟨by omega, hb⟩, if_neg (by omega)]
    · rw [if_neg (by tauto)]

/-- Witness for C2 at the concrete moves `1/10` (die 9, hit) and a die-13
move. -/
theorem compound_move_split_spec_witness :
    splitOne ⟨1, 10, 9, true, false⟩ =
      [⟨1, 4, 3, false, false⟩, ⟨4, 10, 6, true, false⟩] ∧
    splitOne ⟨24, 11, 13, false, false⟩ = [⟨24, 11, 13, false, false⟩] := by
  constructor
  · exact (((compound_move_split_spec ⟨1, 10, 9, true, false⟩).1
      (by decide) (by decide) (by decide)).2.2.2.2).trans (by decide)
  · exact (compound_move_split_spec ⟨24, 11, 13, false, false⟩).2 (by decide)

/-! ## C6: cube parsing -/

/-- C6: `_parse_cube` defaults missing labels to 0 / 0 / 1 and recommends
the numerically greatest equity with ties resolved in the order
no_double > double_take > double_pass. -/
theorem parse_cube_spec (nd dt dp : Option ℚ) :
    (parseCube nd dt dp).no_double_equity = nd.getD 0 ∧
    (parseCube nd dt dp).double_take_equity = dt.getD 0 ∧
    (parseCube nd dt dp).double_pass_equity = dp.getD 1 ∧
    ((parseCube nd dt dp).recommendation = "no_double" ↔
      dt.getD 0 ≤ nd.getD 0 ∧ dp.getD 1 ≤ nd.getD 0) ∧
    ((parseCube nd dt dp).recommendation = "double_take" ↔
      nd.getD 0 < dt.getD 0 ∧ dp.getD 1 ≤ dt.getD 0) ∧
    ((parseCube nd dt dp).recommendation = "double_pass" ↔
      nd.getD 0 < dp.getD 1 ∧ dt.getD 0 < dp.getD 1) := by
  have hnd : ("no_double" : String) ≠ "double_take" := by decide
  have hnp : ("no_double" : String) ≠ "double_pass" := by decide
  have htn : ("double_take" : String) ≠ "no_double" := by decide
  have htp : ("double_take" : String) ≠ "double_pass" := by decide
  have hpn : ("double_pass" : String) ≠ "no_double" := by decide
  have hpt : ("double_pass" : String) ≠ "double_take" := by decide
  unfold parseCube
  dsimp only
  split_ifs with h1 h2
  · have hle : dt.getD 0 ≤ nd.getD 0 ∧ dp.getD 1 ≤ nd.getD 0 := by
      rw [max_eq_left_iff, max_le_iff] at h1
      exact h1
    refine ⟨rfl, rfl, rfl, ?_, ?_, ?_⟩
    · exact ⟨fun _ => hle, fun _ => rfl⟩
    · exact ⟨fun he => absurd he hnd, fun hc => absurd hc.1 (not_lt.mpr hle.1)⟩
    · exact ⟨fun he => absurd he hnp, fun hc => absurd hc.1 (not_lt.mpr hle.2)⟩
  · have hmbc : max (dt.getD 0) (dp.getD 1) = dt.getD 0 :=
      le_antisymm (le_trans (le_max_right (nd.getD 0) _) (le_of_eq h2))
        (le_max_left _ _)
    have hcb : dp.getD 1 ≤ dt.getD 0 := max_eq_left_iff.mp hmbc
    have hab : nd.getD 0 ≤ dt.getD 0 :=
      le_trans (le_max_left (nd.getD 0) (max (dt.getD 0) (dp.getD 1))) (le_of_eq h2)
    have haltb : nd.getD 0 < dt.getD 0 := by
      rcases lt_or_eq_of_le hab with hlt | heq
      · exact hlt
      · exact absurd (by rw [hmbc, ← heq, max_self]) h1
    refine ⟨rfl, rfl, rfl, ?_, ?_, ?_⟩
    · exact ⟨fun he => absurd he htn, fun hc => absurd haltb hc.1.not_lt⟩
    · exact ⟨fun _ => ⟨haltb, hcb⟩, fun _ => rfl⟩
    · exact ⟨fun he => absurd he htp, fun hc => absurd hc.2 hcb.not_lt⟩
  · have hmax : max (nd.getD 0) (max (dt.getD 0) (dp.getD 1)) = dp.getD 1 := by
      rcases max_choice (nd.getD 0) (max (dt.getD 0) (dp.getD 1)) with hx | hx
      · exact absurd hx h1
      · rcases max_choice (dt.getD 0) (dp.getD 1) with hy | hy
        · exact absurd (hx.trans hy) h2
        · exact hx.trans hy
    have hac : nd.getD 0 ≤ dp.getD 1 := le_of_le_of_eq (le_max_left _ _) hmax
    have hbc : dt.getD 0 ≤ dp.getD 1 :=
      le_of_le_of_eq (le_trans (le_max_left _ _) (le_max_right (nd.getD 0) _)) hmax
    have haltc : nd.getD 0 < dp.getD 1 :=
      lt_of_le_of_ne hac (fun he => h1 (hmax.trans he.symm))
    have hbltc : dt.getD 0 < dp.getD 1 :=
      lt_of_le_of_ne hbc (fun he => h2 (hmax.trans he.symm))
    refine ⟨rfl, rfl, rfl, ?_, ?_, ?_⟩
    · exact ⟨fun he => absurd he hpn, fun hc => absurd hc.2 haltc.not_le⟩
    · exact ⟨fun he => absurd he hpt, fun hc => absurd hc.2 hbltc.not_le⟩
    · exact ⟨fun _ => ⟨haltc, hbltc⟩, fun _ => rfl⟩

/-! ## C3: black-perspective transform -/

/-- C3 counterexample: the claim asserts the regenerated notation keeps
the `"bar"` literal for a transformed bar move, but the regeneration
tests `from_point == 0` on the *transformed* move (whose bar point is
25), so a bar move `bar/5` regenerates as `"25/20"`, which does not start
with `"bar"`. -/
theorem transform_black_bar_notation_cex :
    (transformForBlack ⟨⟨[⟨0, 5, 5, false, false⟩], "bar/5"⟩, 1/10,
        [⟨1, ⟨[⟨0, 5, 5, false, false⟩], "bar/5"⟩, 1/10, 1/2, 0⟩]⟩).best_play.notationText
      = "25/20" ∧
    ("bar".toList.isPrefixOf
        (transformForBlack ⟨⟨[⟨0, 5, 5, false, false⟩], "bar/5"⟩, 1/10,
          [⟨1, ⟨[⟨0, 5, 5, false, false⟩], "bar/5"⟩, 1/10, 1/2, 0⟩]⟩).best_play.notationText.toList)
      = false := by decide

/-- C3 (amended): point mapping `p' = 25 - p` with bar `0 → 25`, bear-off
destination recomputed as `from' + die`, equities negated, win
probability complemented, equity difference unchanged, and the notation
regenerated from the transformed moves — so that a transformed bar
move's part reads `"25/..."` (the `"bar"` literal would appear only for a
transformed from-point of 0), while `"off"` is kept for bear-offs. -/
theorem transform_black_spec (r : EvaluateResponse) :
    (transformForBlack r).best_equity = -r.best_equity ∧
    (transformForBlack r).best_play = transform_play r.best_play ∧
    (transformForBlack r).all_plays.length = r.all_plays.length ∧
    (∀ i : Nat, (transformForBlack r).all_plays.getD i ⟨1, ⟨[], ""⟩, 0, 1/2, 0⟩
        = transformRanked (r.all_plays.getD i ⟨1, ⟨[], ""⟩, 0, 1/2, 0⟩)) ∧
    (∀ rp : RankedPlay, transformRanked rp =
      ⟨rp.rank, transform_play rp.play, -rp.equity, 1 - rp.win_probability,
        rp.equity_difference⟩) ∧
    (∀ m : MoveResponse, transform_move m =
      ⟨(if m.from_point = 0 then 25 else 25 - m.from_point),
       (if m.is_bear_off
          then (if m.from_point = 0 then 25 else 25 - m.from_point) + m.die_used
          else 25 - m.to_point),
       m.die_used, m.is_hit, m.is_bear_off⟩) ∧
    (∀ p : PlayResponse,
      (transform_play p).moves = p.moves.map transform_move ∧
      (transform_play p).notationText
        = joinSpace ((p.moves.map transform_move).map moveNotationPart)) ∧
    (∀ m : MoveResponse, m.from_point = 0 →
      moveNotationPart (transform_move m) =
        "25/" ++ (if m.is_bear_off then "off" else toString (25 - m.to_point)) ++
          (if m.is_hit then "*" else "")) := by
  refine ⟨rfl, rfl, by simp [transformForBlack], ?_, fun _ => rfl, fun _ => rfl,
    fun _ => ⟨rfl, rfl⟩, ?_⟩
  · intro i
    refine getD_map_fix transformRanked r.all_plays _ ?_ i
    simp only [transformRanked, transform_play, List.map_nil, joinSpace,
      RankedPlay.mk.injEq, PlayResponse.mk.injEq]
    norm_num
  · intro m hm
    cases hbo : m.is_bear_off <;> cases hh : m.is_hit <;>
      simp only [moveNotationPart, transform_move, hm, hbo, hh, if_true, if_false,
        Bool.false_eq_true, Bool.true_eq_false] <;> rfl

/-- Witness for C3 at the bar move `0 → 5` (die 5): the transformed part
reads `25/20`. -/
theorem transform_black_spec_witness :
    moveNotationPart (transform_move ⟨0, 5, 5, false, false⟩) = "25/20" :=
  ((transform_black_spec ⟨⟨[], ""⟩, 0, []⟩).2.2.2.2.2.2.2
    ⟨0, 5, 5, false, false⟩ rfl).trans (by decide)

/-! ## C8: the transform applied twice -/

/-- C8 counterexample: a bear-off move's destination placeholder `0` is
recomputed as `from' + die` by each application, so transforming twice
turns `6/off` (to-point 0) into to-point 12 — not the original result. -/
theorem transform_involution_cex :
    transformForBlack (transformForBlack
        ⟨⟨[⟨6, 0, 6, false, true⟩], "6/off"⟩, 0, []⟩)
      ≠ ⟨⟨[⟨6, 0, 6, false, true⟩], "6/off"⟩, 0, []⟩ := by decide

theorem transform_move_involutive (m : MoveResponse) (hb : m.is_bear_off = false) :
    transform_move (transform_move m) = m := by
  obtain ⟨f, t, d, hh, b⟩ := m
  cases b
  · simp only [transform_move, MoveResponse.mk.injEq, Bool.false_eq_true, if_false,
      and_true]
    split_ifs <;> constructor <;> omega
  · simp at hb

theorem transform_play_involutive (p : PlayResponse)
    (hb : ∀ m ∈ p.moves, m.is_bear_off = false)
    (hn : p.notationText = joinSpace (p.moves.map moveNotationPart)) :
    transform_play (transform_play p) = p := by
  obtain ⟨ms, nt⟩ := p
  simp only at hb hn
  have hmm : (ms.map transform_move).map transform_move = ms := by
    rw [List.map_map]
    have hpt : ∀ m ∈ ms, (transform_move ∘ transform_move) m = id m := fun m hm =>
      transform_move_involutive m (hb m hm)
    rw [List.map_congr_left hpt, List.map_id]
  simp only [transform_play, PlayResponse.mk.injEq]
  exact ⟨hmm, by rw [hmm]; exact hn.symm⟩

/-- C8 (amended): on results whose moves carry no bear-off flag and whose
notation strings are exactly the regenerated form of their own moves,
applying `_transform_for_black` twice is the identity (equity negation
and win-probability complementation are self-inverse, `p' = 25 - p` is
self-inverse with bar `0 → 25 → 0`, equity differences pass through). -/
theorem transform_involution (r : EvaluateResponse)
    (hb1 : ∀ m ∈ r.best_play.moves, m.is_bear_off = false)
    (hn1 : r.best_play.notationText = joinSpace (r.best_play.moves.map moveNotationPart))
    (hb2 : ∀ rp ∈ r.all_plays, ∀ m ∈ rp.play.moves, m.is_bear_off = false)
    (hn2 : ∀ rp ∈ r.all_plays,
      rp.play.notationText = joinSpace (rp.play.moves.map moveNotationPart)) :
    transformForBlack (transformForBlack r) = r := by
  obtain ⟨bp, be, plays⟩ := r
  simp only at hb1 hn1 hb2 hn2
  simp only [transformForBlack, EvaluateResponse.mk.injEq]
  refine ⟨transform_play_involutive bp hb1 hn1, by ring, ?_⟩
  rw [List.map_map]
  have hpt : ∀ rp ∈ plays, (transformRanked ∘ transformRanked) rp = id rp := by
    intro rp hrp
    obtain ⟨rk, pl, eq, wp, ed⟩ := rp
    simp only [Function.comp_apply, transformRanked, RankedPlay.mk.injEq, id_eq,
      true_and, and_true]
    exact ⟨transform_play_involutive pl (hb2 _ hrp) (hn2 _ hrp), by ring, by ring⟩
  rw [List.map_congr_left hpt, List.map_id]

/-- Witness for C8 at a one-move result `24/21` in regenerated-notation
form. -/
theorem transform_involution_witness :
    transformForBlack (transformForBlack
        ⟨⟨[⟨24, 21, 3, false, false⟩], "24/21"⟩, 1/4,
          [⟨1, ⟨[⟨24, 21, 3, false, false⟩], "24/21"⟩, 1/4, 1/2, 0⟩]⟩)
      = ⟨⟨[⟨24, 21, 3, false, false⟩], "24/21"⟩, 1/4,
          [⟨1, ⟨[⟨24, 21, 3, false, false⟩], "24/21"⟩, 1/4, 1/2, 0⟩]⟩ :=
  transform_involution _ (by decide) (by decide) (by decide) (by decide)

/-! ## C10: ranked-play parsing invariants -/

/-- C10 counterexample: the regex happily matches a line such as
`"1. a/b  Eq.: 0.50"`, handing the notation group `"a/b"` to
`_parse_notation`, where `int("a")` raises `ValueError` — the parser is
not total. -/
theorem parse_evaluation_cex : parseEvaluationM [(1, "a/b", 1/2)] = none := by rfl

/-- C10 (amended): whenever `_parse_evaluation` returns (i.e. every
matched notation actually parses), the ranked list is non-empty, the
best play and best equity are the first entry's, and with no matches at
all the single entry is rank 1, no moves, notation "No move", equity 0;
on a non-parsing notation the `ValueError` escapes instead. -/
theorem parse_evaluation_spec (ms : List (Int × String × ℚ)) (r : EvaluateResponse)
    (h : parseEvaluationM ms = some r) :
    r.all_plays ≠ [] ∧
    r.best_play = (r.all_plays.headD fallbackPlay).play ∧
    r.best_equity = (r.all_plays.headD fallbackPlay).equity ∧
    (ms = [] → r.all_plays = [fallbackPlay]) := by
  unfold parseEvaluationM at h
  rcases hb : buildRanked ms none with _ | plays
  · rw [hb] at h
    exact absurd h (by simp)
  · rw [hb] at h
    cases plays with
    | nil =>
      simp only [Option.some.injEq] at h
      rw [← h]
      exact ⟨by simp, rfl, rfl, fun _ => rfl⟩
    | cons p rest =>
      simp only [Option.some.injEq] at h
      rw [← h]
      refine ⟨by simp, rfl, rfl, ?_⟩
      intro hms
      rw [hms] at hb
      simp only [buildRanked, Option.some.injEq] at hb
      exact absurd hb (by simp)

/-- Witness for C10 at the single match `(1, "24/21", 0)`. -/
theorem parse_evaluation_spec_witness :
    ((⟨⟨[⟨24, 21, 3, false, false⟩], "24/21"⟩, 0,
        [⟨1, ⟨[⟨24, 21, 3, false, false⟩], "24/21"⟩, 0, 1/2, 0⟩]⟩ :
          EvaluateResponse).all_plays ≠ [] ∧
      (⟨⟨[⟨24, 21, 3, false, false⟩], "24/21"⟩, 0,
        [⟨1, ⟨[⟨24, 21, 3, false, false⟩], "24/21"⟩, 0, 1/2, 0⟩]⟩ :
          EvaluateResponse).best_play
        = (((⟨⟨[⟨24, 21, 3, false, false⟩], "24/21"⟩, 0,
            [⟨1, ⟨[⟨24, 21, 3, false, false⟩], "24/21"⟩, 0, 1/2, 0⟩]⟩ :
              EvaluateResponse).all_plays).headD fallbackPlay).play ∧
      (⟨⟨[⟨24, 21, 3, false, false⟩], "24/21"⟩, 0,
        [⟨1, ⟨[⟨24, 21, 3, false, false⟩], "24/21"⟩, 0, 1/2, 0⟩]⟩ :
          EvaluateResponse).best_equity
        = (((⟨⟨[⟨24, 21, 3, false, false⟩], "24/21"⟩, 0,
            [⟨1, ⟨[⟨24, 21, 3, false, false⟩], "24/21"⟩, 0, 1/2, 0⟩]⟩ :
              EvaluateResponse).all_plays).headD fallbackPlay).equity ∧
      ([((1 : Int), ("24/21" : String), (0 : ℚ))] = [] →
        (⟨⟨[⟨24, 21, 3, false, false⟩], "24/21"⟩, 0,
          [⟨1, ⟨[⟨24, 21, 3, false, false⟩], "24/21"⟩, 0, 1/2, 0⟩]⟩ :
            EvaluateResponse).all_plays = [fallbackPlay])) :=
  parse_evaluation_spec [(1, "24/21", 0)] _ (by rfl)

/-! ## C4: checker-count validation -/

/-- C4: a request whose white or black total differs from 15 is answered
with the mock result and no command at all reaches the engine. -/
theorem invalid_count_mock_fallback (mockResult : EvaluateResponse)
    (send : String → Option String) (matcher : String → List (Int × String × ℚ))
    (req : EvaluateRequest)
    (h : ¬ (whiteTotal req = 15 ∧ blackTotal req = 15)) :
    evaluateM false mockResult send matcher req = (mockResult, []) := by
  unfold evaluateM
  rw [if_neg (by simp), if_pos h]

/-- Witness for C4: an empty board (0 checkers a side) with the mock
result returned untouched and an empty command log. -/
theorem invalid_count_mock_fallback_witness :
    evaluateM false ⟨⟨[], "No move"⟩, 0, []⟩ (fun _ => none) (fun _ => [])
        ⟨List.replicate 24 0, [0, 0], [0, 0], [3, 1], "white", 2⟩
      = (⟨⟨[], "No move"⟩, 0, []⟩, []) :=
  invalid_count_mock_fallback _ _ _ _ (by decide)
